import Mathlib

/-!
Verification of the nebari storage core against its specification.

Shallow embedding of the Rust sources:
  src/nebari/src/chunk_cache.rs, roots.rs, managed_file/fs.rs,
  src/nebari/src/tree/by_sequence.rs, key_entry.rs, interior.rs.

Byte buffers are embedded as `List Nat` (each element a byte value);
machine integers as `Nat`, with explicit bounds (`< 2 ^ 32`, `< 2 ^ 64`)
where the fixed width matters.  Fallible operations return `Except`.
-/

namespace Nebari

/-- The error kinds raised by the embedded operations, mirroring the error
variants of the source (`Error` / `ErrorKind` in nebari): `Io` from the byte
reader, `DataIntegrity` for truncated input, and the two oversized-field
errors raised by serialization. -/
inductive Error where
  | ioError
  | dataIntegrity
  | keyTooLarge
  | idTooLarge
deriving DecidableEq, Repr

/-- Big-endian byte encoding of `n` into `w` bytes, mirroring
`byteorder::BigEndian` writes (`write_u16` / `write_u32` / `write_u64`):
byte `k` from the left is `n / 256 ^ (w - 1 - k) % 256`. -/
def beBytes : Nat → Nat → List Nat
  | 0, _ => []
  | w + 1, n => (n / 256 ^ w % 256) :: beBytes w n

/-- Big-endian decoding of a byte list, mirroring `byteorder` reads. -/
def beDecode (bytes : List Nat) : Nat :=
  bytes.foldl (fun acc b => acc * 256 + b) 0

/-- Reading a `w`-byte big-endian integer from a cursor, mirroring
`reader.read_u16::<BigEndian>()` etc.  Insufficient bytes surface as the
`Io` error the byteorder reads raise on a short buffer. -/
def readBE (w : Nat) (l : List Nat) : Except Error (Nat × List Nat) :=
  if w ≤ l.length then .ok (beDecode (l.take w), l.drop w) else .error .ioError

theorem beBytes_length (w n : Nat) : (beBytes w n).length = w := by
  induction w with
  | zero => rfl
  | succ w ih => simp [beBytes, ih]

theorem beBytes_foldl (w n acc : Nat) :
    (beBytes w n).foldl (fun acc b => acc * 256 + b) acc =
      acc * 256 ^ w + n % 256 ^ w := by
  induction w generalizing acc with
  | zero => simp [beBytes, Nat.mod_one]
  | succ w ih =>
    simp only [beBytes, List.foldl_cons, ih]
    have h := Nat.mod_pow_succ (x := n) (b := 256) (k := w)
    rw [h]
    ring

theorem beDecode_beBytes (w n : Nat) : beDecode (beBytes w n) = n % 256 ^ w := by
  have := beBytes_foldl w n 0
  simpa [beDecode] using this

theorem readBE_beBytes (w n : Nat) (rest : List Nat) :
    readBE w (beBytes w n ++ rest) = .ok (n % 256 ^ w, rest) := by
  have hlen : (beBytes w n).length = w := beBytes_length w n
  have hle : w ≤ (beBytes w n ++ rest).length := by
    simp only [List.length_append, hlen]
    omega
  have htake : (beBytes w n ++ rest).take w = beBytes w n :=
    List.take_left' hlen
  have hdrop : (beBytes w n ++ rest).drop w = rest :=
    List.drop_left' hlen
  simp [readBE, hle, htake, hdrop, beDecode_beBytes, hlen]

theorem readBE_beBytes_of_lt (w n : Nat) (rest : List Nat) (h : n < 256 ^ w) :
    readBE w (beBytes w n ++ rest) = .ok (n, rest) := by
  rw [readBE_beBytes, Nat.mod_eq_of_lt h]

/-- Reading `n` raw bytes from a cursor, mirroring `reader.read_bytes(n)`. -/
def readBytes (n : Nat) (l : List Nat) : Except Error (List Nat × List Nat) :=
  if n ≤ l.length then .ok (l.take n, l.drop n) else .error .ioError

/-- Modelled from the spec: the paged writer (src/ does not include
`paged_writer.rs`, only its users).  Per spec section 4.2, `write_chunk`
appends a chunk and returns the absolute position of the chunk's first byte;
per section 3, a chunk is an 8-byte header (`u32 length | u32 crc32`)
followed by the payload, so the write advances the position by at least
`8 + payload length`.  Page tags and padding are abstracted away; only the
returned position and the recorded chunks matter to the claims below. -/
structure PagedWriter where
  position : Nat
  chunks : List (Nat × List Nat)
deriving DecidableEq, Repr

def PagedWriter.write_chunk (pw : PagedWriter) (bytes : List Nat) :
    Nat × PagedWriter :=
  (pw.position,
    { position := pw.position + 8 + bytes.length,
      chunks := pw.chunks ++ [(pw.position, bytes)] })

/-- The serialization contract of `tree/serialization.rs`: serialize to a
byte buffer (possibly emitting sub-chunks through the paged writer), and
deserialize from a byte cursor given the current tree order. -/
class BinarySerialization (A : Type) where
  serialize_to : A → PagedWriter → Except Error (List Nat × PagedWriter)
  deserialize_from : List Nat → Nat → Except Error (A × List Nat)

/-- The by-sequence index record of `tree/by_sequence.rs`: a document id,
document size (`u32`) and value position (`u64`). -/
structure BySequenceIndex where
  document_id : List Nat
  document_size : Nat
  position : Nat
deriving DecidableEq, Repr

/-- `BySequenceIndex::serialize_to`: writes `document_size` (u32 BE), then
`position` (u64 BE), then the id length (u16 BE, `IdTooLarge` if the id
exceeds 65535 bytes), then the id bytes. -/
def BySequenceIndex.serialize_to (s : BySequenceIndex) (pw : PagedWriter) :
    Except Error (List Nat × PagedWriter) :=
  if s.document_id.length ≤ 65535 then
    .ok (beBytes 4 s.document_size ++ beBytes 8 s.position ++
          beBytes 2 s.document_id.length ++ s.document_id, pw)
  else
    .error .idTooLarge

/-- `BySequenceIndex::deserialize_from`: reads size, position and id length,
and raises `DataIntegrity` when the declared id length exceeds the bytes
remaining in the cursor. -/
def BySequenceIndex.deserialize_from (r : List Nat) (_order : Nat) :
    Except Error (BySequenceIndex × List Nat) := do
  let (document_size, r) ← readBE 4 r
  let (position, r) ← readBE 8 r
  let (document_id_length, r) ← readBE 2 r
  if document_id_length > r.length then
    .error .dataIntegrity
  else do
    let (document_id, r) ← readBytes document_id_length r
    .ok ({ document_id := document_id, document_size := document_size,
           position := position }, r)

instance : BinarySerialization BySequenceIndex :=
  ⟨BySequenceIndex.serialize_to, BySequenceIndex.deserialize_from⟩

/-- The by-sequence reduction record of `tree/by_sequence.rs`. -/
structure BySequenceStats where
  number_of_records : Nat
deriving DecidableEq, Repr

/-- `BySequenceStats::serialize_to`: a single u64 BE. -/
def BySequenceStats.serialize_to (s : BySequenceStats) (pw : PagedWriter) :
    Except Error (List Nat × PagedWriter) :=
  .ok (beBytes 8 s.number_of_records, pw)

/-- `BySequenceStats::deserialize_from`: reads a single u64 BE. -/
def BySequenceStats.deserialize_from (r : List Nat) (_order : Nat) :
    Except Error (BySequenceStats × List Nat) := do
  let (number_of_records, r) ← readBE 8 r
  .ok ({ number_of_records := number_of_records }, r)

instance : BinarySerialization BySequenceStats :=
  ⟨BySequenceStats.serialize_to, BySequenceStats.deserialize_from⟩

/-- The leaf entry of `tree/key_entry.rs`: a key and an index payload. -/
structure KeyEntry (I : Type) where
  key : List Nat
  index : I
deriving DecidableEq, Repr

/-- `KeyEntry::serialize_to`: writes the key length (u16 BE, `KeyTooLarge`
if the key exceeds 65535 bytes), the key bytes, then the index payload. -/
def KeyEntry.serialize_to {I : Type} [BinarySerialization I]
    (e : KeyEntry I) (pw : PagedWriter) :
    Except Error (List Nat × PagedWriter) :=
  if e.key.length ≤ 65535 then do
    let (indexBytes, pw) ← BinarySerialization.serialize_to e.index pw
    .ok (beBytes 2 e.key.length ++ e.key ++ indexBytes, pw)
  else
    .error .keyTooLarge

/-- `KeyEntry::deserialize_from`: reads the key length, raises
`DataIntegrity` when it exceeds the remaining bytes, reads the key, then
the index payload. -/
def KeyEntry.deserialize_from {I : Type} [BinarySerialization I]
    (r : List Nat) (order : Nat) :
    Except Error (KeyEntry I × List Nat) := do
  let (keyLen, r) ← readBE 2 r
  if keyLen > r.length then
    .error .dataIntegrity
  else do
    let (key, r) ← readBytes keyLen r
    let (index, r) ←
      (BinarySerialization.deserialize_from r order : Except Error (I × List Nat))
    .ok ({ key := key, index := index }, r)

instance {I : Type} [BinarySerialization I] : BinarySerialization (KeyEntry I) :=
  ⟨KeyEntry.serialize_to, KeyEntry.deserialize_from⟩

/-- Modelled from the spec: a child B-Tree node as seen by
`Interior::serialize_to` (src/ does not include `btree_entry.rs`).  Per
spec sections 3 and 4.4, a node carries a `dirty` flag and serializes to a
byte string; both are all the interior serializer consumes. -/
structure BTreeEntryNode where
  dirty : Bool
  bytes : List Nat
deriving DecidableEq, Repr

/-- The child pointer of `tree/interior.rs`: either an on-disk position or
a loaded child node with its previous location. -/
inductive Pointer (E : Type) where
  | onDisk (position : Nat)
  | loaded (previous_location : Option Nat) (entry : E)
deriving DecidableEq, Repr

/-- The interior entry of `tree/interior.rs`: max key, child pointer, and
reduced statistics. -/
structure Interior (E R : Type) where
  key : List Nat
  position : Pointer E
  stats : R
deriving DecidableEq, Repr

/-- The pointer-resolution step at the top of `Interior::serialize_to`:
an `OnDisk` pointer keeps its position; a loaded child is serialized into a
fresh chunk when it is dirty or has never been on disk, else its previous
location is reused. -/
def Interior.resolveLocation (p : Pointer BTreeEntryNode) (pw : PagedWriter) :
    Nat × PagedWriter :=
  match p with
  | .onDisk position => (position, pw)
  | .loaded previous_location entry =>
    match entry.dirty, previous_location with
    | true, _ => pw.write_chunk entry.bytes
    | false, none => pw.write_chunk entry.bytes
    | false, some position => (position, pw)

/-- `Interior::serialize_to`: resolves the child pointer to an on-disk
location (writing the child chunk if needed), then writes the key length
(u16 BE, `KeyTooLarge` if over 65535 bytes), the key, the location
(u64 BE), and the reduced statistics. -/
def Interior.serialize_to {R : Type} [BinarySerialization R]
    (i : Interior BTreeEntryNode R) (pw : PagedWriter) :
    Except Error (List Nat × PagedWriter) :=
  let (location_on_disk, pw) := Interior.resolveLocation i.position pw
  if i.key.length ≤ 65535 then do
    let (statsBytes, pw) ← BinarySerialization.serialize_to i.stats pw
    .ok (beBytes 2 i.key.length ++ i.key ++ beBytes 8 location_on_disk ++
          statsBytes, pw)
  else
    .error .keyTooLarge

/-- `Interior::deserialize_from`: reads the key length, raises
`DataIntegrity` when it exceeds the remaining bytes, reads the key, the
position (always deserialized as `OnDisk`), and the statistics. -/
def Interior.deserialize_from {R : Type} [BinarySerialization R]
    (r : List Nat) (order : Nat) :
    Except Error (Interior BTreeEntryNode R × List Nat) := do
  let (keyLen, r) ← readBE 2 r
  if keyLen > r.length then
    .error .dataIntegrity
  else do
    let (key, r) ← readBytes keyLen r
    let (position, r) ← readBE 8 r
    let (stats, r) ←
      (BinarySerialization.deserialize_from r order : Except Error (R × List Nat))
    .ok ({ key := key, position := .onDisk position, stats := stats }, r)

@[simp]
theorem ok_bind {ε α β : Type} (a : α) (f : α → Except ε β) :
    (Except.ok a >>= f) = f a := rfl

@[simp]
theorem error_bind {ε α β : Type} (e : ε) (f : α → Except ε β) :
    ((Except.error e : Except ε α) >>= f) = Except.error e := rfl

theorem readBytes_append (l rest : List Nat) :
    readBytes l.length (l ++ rest) = .ok (l, rest) := by
  have hle : l.length ≤ (l ++ rest).length := by
    simp only [List.length_append]; omega
  simp [readBytes, hle, List.take_left, List.drop_left]

theorem bySequenceIndex_roundtrip (s : BySequenceIndex) (pw : PagedWriter)
    (rest : List Nat) (order : Nat)
    (hid : s.document_id.length ≤ 65535)
    (hds : s.document_size < 256 ^ 4) (hpos : s.position < 256 ^ 8) :
    s.serialize_to pw =
      .ok (beBytes 4 s.document_size ++ beBytes 8 s.position ++
            beBytes 2 s.document_id.length ++ s.document_id, pw) ∧
    BySequenceIndex.deserialize_from
        ((beBytes 4 s.document_size ++ beBytes 8 s.position ++
          beBytes 2 s.document_id.length ++ s.document_id) ++ rest) order =
      .ok (s, rest) := by
  constructor
  · simp [BySequenceIndex.serialize_to, hid]
  · have hid' : s.document_id.length < 256 ^ 2 := by omega
    have hnot : ¬ s.document_id.length > (s.document_id ++ rest).length := by
      simp only [List.length_append]; omega
    simp only [BySequenceIndex.deserialize_from, List.append_assoc,
      readBE_beBytes_of_lt _ _ _ hds, readBE_beBytes_of_lt _ _ _ hpos,
      readBE_beBytes_of_lt _ _ _ hid', ok_bind, hnot, if_false,
      readBytes_append]

theorem bySequenceStats_roundtrip (s : BySequenceStats) (pw : PagedWriter)
    (rest : List Nat) (order : Nat)
    (hn : s.number_of_records < 256 ^ 8) :
    s.serialize_to pw = .ok (beBytes 8 s.number_of_records, pw) ∧
    BySequenceStats.deserialize_from (beBytes 8 s.number_of_records ++ rest)
        order = .ok (s, rest) := by
  refine ⟨rfl, ?_⟩
  simp only [BySequenceStats.deserialize_from, readBE_beBytes_of_lt _ _ _ hn,
    ok_bind]

theorem keyEntry_roundtrip {I : Type} [BinarySerialization I]
    (e : KeyEntry I) (pw pw' : PagedWriter)
    (indexBytes rest : List Nat) (order : Nat)
    (hkey : e.key.length ≤ 65535)
    (hser : BinarySerialization.serialize_to e.index pw = .ok (indexBytes, pw'))
    (hdeser : BinarySerialization.deserialize_from (indexBytes ++ rest) order =
      Except.ok (e.index, rest)) :
    e.serialize_to pw = .ok (beBytes 2 e.key.length ++ e.key ++ indexBytes, pw') ∧
    KeyEntry.deserialize_from
        ((beBytes 2 e.key.length ++ e.key ++ indexBytes) ++ rest) order =
      Except.ok (e, rest) := by
  constructor
  · simp [KeyEntry.serialize_to, hkey, hser]
  · have hkey' : e.key.length < 256 ^ 2 := by omega
    have hnot : ¬ e.key.length > (e.key ++ (indexBytes ++ rest)).length := by
      simp only [List.length_append]; omega
    have htake : (e.key ++ (indexBytes ++ rest)).take e.key.length = e.key :=
      List.take_left _ _
    have hdrop : (e.key ++ (indexBytes ++ rest)).drop e.key.length =
        indexBytes ++ rest := List.drop_left _ _
    simp only [KeyEntry.deserialize_from, List.append_assoc,
      readBE_beBytes_of_lt _ _ _ hkey', ok_bind, hnot, if_false, readBytes,
      hnot, if_true, htake, hdrop]
    have hle : e.key.length ≤ (e.key ++ (indexBytes ++ rest)).length := by
      omega
    simp only [if_pos hle, ok_bind, htake, hdrop, hdeser]

theorem interior_roundtrip {R : Type} [BinarySerialization R]
    (i : Interior BTreeEntryNode R) (pw pw' pw'' : PagedWriter)
    (location : Nat) (statsBytes rest : List Nat) (order : Nat)
    (hkey : i.key.length ≤ 65535)
    (hloc : Interior.resolveLocation i.position pw = (location, pw'))
    (hlocLt : location < 256 ^ 8)
    (hser : BinarySerialization.serialize_to i.stats pw' = .ok (statsBytes, pw''))
    (hdeser : BinarySerialization.deserialize_from (statsBytes ++ rest) order =
      Except.ok (i.stats, rest)) :
    i.serialize_to pw =
      .ok (beBytes 2 i.key.length ++ i.key ++ beBytes 8 location ++ statsBytes,
            pw'') ∧
    Interior.deserialize_from
        ((beBytes 2 i.key.length ++ i.key ++ beBytes 8 location ++ statsBytes)
          ++ rest) order =
      Except.ok ({ key := i.key, position := .onDisk location,
                   stats := i.stats }, rest) := by
  constructor
  · simp [Interior.serialize_to, hloc, hkey, hser]
  · have hkey' : i.key.length < 256 ^ 2 := by omega
    have hnot : ¬ i.key.length >
        (i.key ++ (beBytes 8 location ++ (statsBytes ++ rest))).length := by
      simp only [List.length_append]; omega
    have htake :
        (i.key ++ (beBytes 8 location ++ (statsBytes ++ rest))).take
          i.key.length = i.key := List.take_left _ _
    have hdrop :
        (i.key ++ (beBytes 8 location ++ (statsBytes ++ rest))).drop
          i.key.length = beBytes 8 location ++ (statsBytes ++ rest) :=
      List.drop_left _ _
    have hle : i.key.length ≤
        (i.key ++ (beBytes 8 location ++ (statsBytes ++ rest))).length := by
      simp only [List.length_append]; omega
    simp only [Interior.deserialize_from, List.append_assoc,
      readBE_beBytes_of_lt _ _ _ hkey', ok_bind, hnot, if_false, readBytes,
      if_pos hle, htake, hdrop, readBE_beBytes_of_lt _ _ _ hlocLt, hdeser]

/-- Modelled from the spec: the capacity-bounded LRU map of the external
`lru` crate consumed by `chunk_cache.rs` (spec section 4.1: "The cache is a
capacity-bounded LRU").  Entries are held most-recently-used first;
`put` refreshes an existing key or inserts at the front, evicting the
least-recently-used entry when over capacity; `get` refreshes recency. -/
structure LruCache (K V : Type) where
  capacity : Nat
  entries : List (K × V)

/-- `LruCache::put`. -/
def LruCache.put {K V : Type} [DecidableEq K]
    (c : LruCache K V) (k : K) (v : V) : LruCache K V :=
  if c.entries.any (fun e => e.1 = k) then
    { c with entries := (k, v) :: c.entries.filter (fun e => ¬ e.1 = k) }
  else
    let es := (k, v) :: c.entries
    { c with entries := if c.capacity < es.length then es.dropLast else es }

/-- `LruCache::get`: returns the value and refreshes its recency. -/
def LruCache.getEntry {K V : Type} [DecidableEq K]
    (c : LruCache K V) (k : K) : Option V × LruCache K V :=
  match c.entries.find? (fun e => e.1 = k) with
  | some e =>
    (some e.2, { c with entries := (k, e.2) :: c.entries.filter (fun e => ¬ e.1 = k) })
  | none => (none, c)

/-- `LruCache::peek_mut` followed by an in-place overwrite: replaces the
value stored under `k` (if any) without touching recency. -/
def LruCache.peekMutSet {K V : Type} [DecidableEq K]
    (c : LruCache K V) (k : K) (v : V) : LruCache K V :=
  { c with entries := c.entries.map (fun e => if e.1 = k then (e.1, v) else e) }

/-- The cache key of `chunk_cache.rs`: position and file identity.  The
`Arc<PathBuf>` file path is embedded as a numeric file identity. -/
structure ChunkKey where
  position : Nat
  file_path : Nat
deriving DecidableEq, Repr

/-- A cache entry of `chunk_cache.rs`: either a raw decoded buffer or a
typed decoded value (`Arc<dyn AnySendSync>`, abstracted to a numeric
identity of the boxed value). -/
inductive CacheEntry where
  | buffer (contents : List Nat)
  | decoded (value : Nat)
deriving DecidableEq, Repr

/-- The chunk cache of `chunk_cache.rs`: a maximum cached length and the
LRU map. -/
structure ChunkCache where
  max_block_length : Nat
  cache : LruCache ChunkKey CacheEntry

/-- `ChunkCache::insert`: caches the buffer only when its length is at most
`max_block_length` (named `max_chunk_length` at the constructor). -/
def ChunkCache.insert (c : ChunkCache) (file_path : Nat) (position : Nat)
    (buffer : List Nat) : ChunkCache :=
  if buffer.length ≤ c.max_block_length then
    let key : ChunkKey := { position := position, file_path := file_path }
    { c with cache := c.cache.put key (.buffer buffer) }
  else
    c

/-- `ChunkCache::replace_with_decoded`: promotes an existing entry to a
decoded value via `peek_mut`; absent keys are left alone. -/
def ChunkCache.replace_with_decoded (c : ChunkCache) (file_path : Nat)
    (position : Nat) (value : Nat) : ChunkCache :=
  let key : ChunkKey := { position := position, file_path := file_path }
  { c with cache := c.cache.peekMutSet key (.decoded value) }

/-- `ChunkCache::get`: looks up and clones the entry (refreshing recency). -/
def ChunkCache.get (c : ChunkCache) (file_path : Nat) (position : Nat) :
    Option CacheEntry × ChunkCache :=
  let (v, cc) :=
    c.cache.getEntry { position := position, file_path := file_path }
  (v, { c with cache := cc })

/-- `Reducer<BySequenceIndex> for BySequenceStats`: `reduce` counts the
leaf values. -/
def BySequenceStats.reduce (values : List BySequenceIndex) : BySequenceStats :=
  { number_of_records := values.length }

/-- `Reducer<BySequenceIndex> for BySequenceStats`: `rereduce` sums the
record counts. -/
def BySequenceStats.rereduce (values : List BySequenceStats) : BySequenceStats :=
  { number_of_records := (values.map (fun v => v.number_of_records)).sum }

/-- A tree's key-value content, embedded as an association list from key
bytes to value bytes. -/
abbrev KV := List (List Nat × List Nat)

/-- Reading the stored value of a key. -/
def kvGet (t : KV) (k : List Nat) : Option (List Nat) :=
  (t.find? (fun e => e.1 = k)).map (fun e => e.2)

/-- Storing a value under a key. -/
def kvSet (t : KV) (k v : List Nat) : KV :=
  if t.any (fun e => e.1 = k) then
    t.map (fun e => if e.1 = k then (k, v) else e)
  else
    t ++ [(k, v)]

/-- Removing a key. -/
def kvRemove (t : KV) (k : List Nat) : KV :=
  t.filter (fun e => ¬ e.1 = k)

/-- The per-key decision of a `CompareSwap` callback (`KeyOperation` in
`tree/mod.rs`). -/
inductive KeyOperation where
  | set (value : List Nat)
  | remove
  | skip
deriving DecidableEq, Repr

/-- Modelled from the spec: applying a single-key `CompareSwap` modification
batch (`TreeFile::modify` lives outside src/).  Spec section 4.4: for each
key, invoke the caller-supplied function over the current value and apply
its returned decision `Set(new) | Remove | Skip`; `Skip` leaves the entry
untouched; an absent key is signalled by `stored = None`. -/
def modifyCompareSwap (t : KV) (k : List Nat)
    (callback : Option (List Nat) → KeyOperation) : KV :=
  match callback (kvGet t k) with
  | .set v => kvSet t k v
  | .remove => kvRemove t k
  | .skip => t

/-- The error type of `TransactionTree::compare_and_swap`
(`CompareAndSwapError` in roots.rs): a conflict carrying the stored value,
surfaced distinctly from other errors. -/
inductive CompareAndSwapError where
  | conflict (existing : Option (List Nat))
  | wrapped (e : Error)
deriving DecidableEq, Repr

/-- The closure body of `TransactionTree::compare_and_swap` in roots.rs:
when the stored value equals `old`, set `new` (or remove when `new` is
`None`); otherwise record a `Conflict` with the stored value and skip. -/
def casCallback (old new stored : Option (List Nat)) :
    KeyOperation × Except CompareAndSwapError Unit :=
  if stored = old then
    (match new with
     | some n => KeyOperation.set n
     | none => KeyOperation.remove,
     Except.ok ())
  else
    (KeyOperation.skip, Except.error (.conflict stored))

/-- `TransactionTree::compare_and_swap`: runs a single-key `CompareSwap`
modification with `casCallback` and returns the recorded result alongside
the updated tree content. -/
def TransactionTree.compare_and_swap (t : KV) (k : List Nat)
    (old new : Option (List Nat)) :
    Except CompareAndSwapError Unit × KV :=
  ((casCallback old new (kvGet t k)).2,
    modifyCompareSwap t k (fun stored => (casCallback old new stored).1))

/-- The observable steps of a multi-tree commit, in the order the caller
thread performs them in `ExecutingTransaction::commit`. -/
inductive CommitEvent where
  | treeCommit (index : Nat)
  | logPush
  | publish (index : Nat)
deriving DecidableEq, Repr

instance {ε α : Type} [DecidableEq ε] [DecidableEq α] :
    DecidableEq (Except ε α) := fun a b =>
  match a, b with
  | .ok x, .ok y =>
    if h : x = y then .isTrue (by rw [h]) else
      .isFalse (by intro hc; injection hc; contradiction)
  | .error x, .error y =>
    if h : x = y then .isTrue (by rw [h]) else
      .isFalse (by intro hc; injection hc; contradiction)
  | .ok _, .error _ => .isFalse (by intro hc; injection hc)
  | .error _, .ok _ => .isFalse (by intro hc; injection hc)

/-- A tree participating in a commit, abstracted to the outcome of its
`AnyTransactionTree::commit` (`TreeFile::commit` lives outside src/; only
its `Result` is consumed by roots.rs). -/
structure TransactionTreeModel where
  commitResult : Except Error Unit
deriving DecidableEq, Repr

/-- The first commit error among the trees, mirroring how
`ThreadPool::commit_trees` surfaces the first failed tree result it
receives. -/
def firstCommitError (trees : List TransactionTreeModel) : Option Error :=
  trees.findSome? (fun t =>
    match t.commitResult with
    | .error e => some e
    | .ok _ => none)

/-- `ThreadPool::commit_trees` in roots.rs: every tree's commit is executed
(inline for one tree, on pool workers otherwise — all queued trees commit
either way), and the caller collects all results before returning: the
first error, or the list of tree states on success.  The returned trace
records one `treeCommit` event per tree. -/
def ThreadPool.commit_trees (trees : List TransactionTreeModel) :
    Except Error Unit × List CommitEvent :=
  let events := (List.range trees.length).map CommitEvent.treeCommit
  match firstCommitError trees with
  | some e => (.error e, events)
  | none => (.ok (), events)

/-- `ExecutingTransaction::commit` in roots.rs: commit every tree through
the thread pool; on success push the transaction-log entry, then publish
each tree's state in declared order; on failure return the error with no
push and no publish. -/
def ExecutingTransaction.commit (trees : List TransactionTreeModel) :
    Except Error Unit × List CommitEvent :=
  match ThreadPool.commit_trees trees with
  | (.error e, events) => (.error e, events)
  | (.ok _, events) =>
    (.ok (),
      events ++ [CommitEvent.logPush] ++
        (List.range trees.length).map CommitEvent.publish)

/-- The in-memory state of one tree (`TreeState` lives outside src/): the
published root header and the working copy mutated by an in-flight
transaction, each abstracted to a header snapshot. -/
structure TreeStateModel where
  published : Nat
  working : Nat
deriving DecidableEq, Repr

/-- Modelled from the spec: `State::rollback` as invoked by
`AnyTransactionTree::rollback` in roots.rs (the `TreeState` internals live
outside src/).  Spec section 5, Cancellation: "each tree's working state is
reverted to its published copy". -/
def TreeStateModel.rollback (s : TreeStateModel) : TreeStateModel :=
  { s with working := s.published }

/-- Reading a tree through its published state (`use_active_state = false`). -/
def readPublished (s : TreeStateModel) : Nat :=
  s.published

/-- The observable steps of dropping an uncommitted transaction, in the
order `Drop for ExecutingTransaction` performs them. -/
inductive DropEvent where
  | rollbackTree (index : Nat)
  | releaseHandle
deriving DecidableEq, Repr

/-- An executing transaction as seen by its `Drop` impl: the tree states and
the transaction handle (present until `commit` takes it). -/
structure ExecutingTransactionModel where
  trees : List TreeStateModel
  transaction : Option Nat

/-- `Drop for ExecutingTransaction` in roots.rs: when the handle is still
present, roll back every tree's state, then drop the handle (releasing the
tree reservations).  Returns the resulting tree states and the event
trace. -/
def ExecutingTransaction.dropHandler (tx : ExecutingTransactionModel) :
    List TreeStateModel × List DropEvent :=
  match tx.transaction with
  | some _ =>
    (tx.trees.map TreeStateModel.rollback,
      (List.range tx.trees.length).map DropEvent.rollbackTree ++
        [DropEvent.releaseHandle])
  | none => (tx.trees, [])

/-- The possible outcomes of a call that may return, fail, or panic. -/
inductive CallOutcome (α : Type) where
  | ok (value : α)
  | err (e : Error)
  | panicked
deriving DecidableEq, Repr

/-- The open file of `managed_file/fs.rs`, abstracted to its path. -/
structure StdFile where
  path : String
deriving DecidableEq, Repr

/-- `StdFile::open_for_read` in `managed_file/fs.rs`: `File::open(path)`
(embedded as the `osOpen` environment) followed by `.unwrap()` — an OS
failure panics instead of surfacing an `Err`. -/
def StdFile.open_for_read (osOpen : String → Except Error Unit)
    (path : String) : CallOutcome StdFile :=
  match osOpen path with
  | .ok _ => .ok { path := path }
  | .error _ => .panicked

/-- C5: the `BySequenceStats` reducer satisfies the reducer contract:
`reduce` over a list of `BySequenceIndex` values returns their count,
`rereduce` over a list of `BySequenceStats` returns the sum of their
`number_of_records`, and `rereduce` is invariant under permutation and
regrouping of its inputs. -/
theorem bySequenceStats_reducer_contract :
    (∀ values : List BySequenceIndex,
      BySequenceStats.reduce values = { number_of_records := values.length }) ∧
    (∀ values : List BySequenceStats,
      BySequenceStats.rereduce values =
        { number_of_records :=
            (values.map (fun v => v.number_of_records)).sum }) ∧
    (∀ v₁ v₂ : List BySequenceStats, v₁.Perm v₂ →
      BySequenceStats.rereduce v₁ = BySequenceStats.rereduce v₂) ∧
    (∀ v₁ v₂ : List BySequenceStats,
      BySequenceStats.rereduce (v₁ ++ v₂) =
        BySequenceStats.rereduce
          [BySequenceStats.rereduce v₁, BySequenceStats.rereduce v₂]) := by
  refine ⟨fun _ => rfl, fun _ => rfl, ?_, ?_⟩
  · intro v₁ v₂ h
    simp only [BySequenceStats.rereduce, BySequenceStats.mk.injEq]
    exact ((h.map (fun v => v.number_of_records)).sum_eq)
  · intro v₁ v₂
    simp [BySequenceStats.rereduce, List.sum_append]

/-- Witness for C5 at concrete inputs. -/
theorem bySequenceStats_reducer_contract_witness :
    BySequenceStats.rereduce [{ number_of_records := 2 },
        { number_of_records := 1 }] =
      BySequenceStats.rereduce [{ number_of_records := 1 },
        { number_of_records := 2 }] :=
  bySequenceStats_reducer_contract.2.2.1 _ _
    (List.Perm.swap ({ number_of_records := 1 } : BySequenceStats)
      ({ number_of_records := 2 } : BySequenceStats) [])

/-- C9: `StdFile::open_for_read` never returns an `Err`: when the
underlying file open fails it panics (the error is propagated through
`unwrap`) instead of surfacing an `Io` error to the caller. -/
theorem stdFile_open_for_read_never_errors
    (osOpen : String → Except Error Unit) (path : String) :
    (∀ e, StdFile.open_for_read osOpen path ≠ CallOutcome.err e) ∧
    (∀ e, osOpen path = .error e →
      StdFile.open_for_read osOpen path = CallOutcome.panicked) := by
  constructor
  · intro e hc
    cases h : osOpen path <;>
      simp [StdFile.open_for_read, h] at hc
  · intro e h
    simp [StdFile.open_for_read, h]

/-- Witness for C9 at a concrete failing environment. -/
theorem stdFile_open_for_read_never_errors_witness :
    StdFile.open_for_read (fun _ => Except.error Error.ioError) "db" =
      CallOutcome.panicked :=
  (stdFile_open_for_read_never_errors (fun _ => Except.error Error.ioError)
    "db").2 Error.ioError rfl

/-- C4: when the stored value of a key differs from the supplied `old`
argument, `compare_and_swap` returns `Conflict` carrying the stored value,
leaves the tree content unchanged (the callback returns `Skip`), and a
further compare-and-swap on the same transaction with the matching `old`
succeeds — the transaction is not rolled back. -/
theorem compare_and_swap_conflict (t : KV) (k : List Nat)
    (old new : Option (List Nat)) (h : kvGet t k ≠ old) :
    (TransactionTree.compare_and_swap t k old new).1 =
      Except.error (CompareAndSwapError.conflict (kvGet t k)) ∧
    (TransactionTree.compare_and_swap t k old new).2 = t ∧
    (casCallback old new (kvGet t k)).1 = KeyOperation.skip ∧
    (∀ new₂, (TransactionTree.compare_and_swap t k (kvGet t k) new₂).1 =
      Except.ok ()) := by
  refine ⟨?_, ?_, ?_, ?_⟩
  · simp [TransactionTree.compare_and_swap, casCallback, h]
  · simp [TransactionTree.compare_and_swap, modifyCompareSwap, casCallback, h]
  · simp [casCallback, h]
  · intro new₂
    cases new₂ <;>
      simp [TransactionTree.compare_and_swap, casCallback]

/-- Witness for C4 at a concrete conflicting input (scenario S4). -/
theorem compare_and_swap_conflict_witness :
    (TransactionTree.compare_and_swap [([1], [2])] [1]
        (some [3]) (some [4])).1 =
      Except.error (CompareAndSwapError.conflict (some [2])) ∧
    (TransactionTree.compare_and_swap [([1], [2])] [1]
        (some [3]) (some [4])).2 = [([1], [2])] := by
  have h := compare_and_swap_conflict [([1], [2])] [1]
    (some [3]) (some [4]) (by decide)
  exact ⟨h.1, h.2.1⟩

/-- C7: serializing a `KeyEntry` whose key exceeds 65535 bytes fails with
`KeyTooLarge`, serializing a `BySequenceIndex` whose document id exceeds
65535 bytes fails with `IdTooLarge`, and within the 2-byte length field
both serializations succeed. -/
theorem serialize_length_field_errors :
    (∀ (I : Type) [BinarySerialization I] (e : KeyEntry I) (pw : PagedWriter),
      65535 < e.key.length →
      e.serialize_to pw = Except.error Error.keyTooLarge) ∧
    (∀ (s : BySequenceIndex) (pw : PagedWriter),
      65535 < s.document_id.length →
      s.serialize_to pw = Except.error Error.idTooLarge) ∧
    (∀ (e : KeyEntry BySequenceIndex) (pw : PagedWriter),
      e.key.length ≤ 65535 → e.index.document_id.length ≤ 65535 →
      ∃ out, e.serialize_to pw = Except.ok (out, pw)) ∧
    (∀ (s : BySequenceIndex) (pw : PagedWriter),
      s.document_id.length ≤ 65535 →
      ∃ out, s.serialize_to pw = Except.ok (out, pw)) := by
  refine ⟨?_, ?_, ?_, ?_⟩
  · intro I inst e pw h
    have : ¬ e.key.length ≤ 65535 := by omega
    simp [KeyEntry.serialize_to, this]
  · intro s pw h
    have : ¬ s.document_id.length ≤ 65535 := by omega
    simp [BySequenceIndex.serialize_to, this]
  · intro e pw hkey hid
    refine ⟨beBytes 2 e.key.length ++ e.key ++
      (beBytes 4 e.index.document_size ++ beBytes 8 e.index.position ++
        beBytes 2 e.index.document_id.length ++ e.index.document_id), ?_⟩
    have hser : BySequenceIndex.serialize_to e.index pw =
        Except.ok (beBytes 4 e.index.document_size ++
          beBytes 8 e.index.position ++
          beBytes 2 e.index.document_id.length ++ e.index.document_id, pw) := by
      simp [BySequenceIndex.serialize_to, hid]
    simp only [KeyEntry.serialize_to, if_pos hkey]
    have : BinarySerialization.serialize_to e.index pw =
        BySequenceIndex.serialize_to e.index pw := rfl
    rw [this, hser]
    rfl
  · intro s pw hid
    exact ⟨beBytes 4 s.document_size ++ beBytes 8 s.position ++
      beBytes 2 s.document_id.length ++ s.document_id,
      by simp [BySequenceIndex.serialize_to, hid]⟩

/-- Witness for C7 at concrete oversized and maximal-length inputs. -/
theorem serialize_length_field_errors_witness :
    KeyEntry.serialize_to (I := BySequenceStats)
        ⟨List.replicate 65536 0, ⟨0⟩⟩ ⟨0, []⟩ =
      Except.error Error.keyTooLarge ∧
    BySequenceIndex.serialize_to
        ⟨List.replicate 65536 0, 0, 0⟩ ⟨0, []⟩ =
      Except.error Error.idTooLarge ∧
    (∃ out, KeyEntry.serialize_to (I := BySequenceIndex)
        ⟨[7], ⟨[9], 1, 2⟩⟩ ⟨0, []⟩ =
      Except.ok (out, (⟨0, []⟩ : PagedWriter))) := by
  refine ⟨?_, ?_, ?_⟩
  · exact serialize_length_field_errors.1 BySequenceStats _ _
      (by rw [List.length_replicate]; omega)
  · exact serialize_length_field_errors.2.1 _ _
      (by rw [List.length_replicate]; omega)
  · exact serialize_length_field_errors.2.2.1 _ _ (by simp) (by simp)

/-- C8: when a length prefix (key length in `KeyEntry` or `Interior`,
document-id length in `BySequenceIndex`) declares more bytes than remain in
the buffer, `deserialize_from` returns a `DataIntegrity` error. -/
theorem deserialize_truncated_data_integrity (declared : Nat)
    (rest : List Nat) (order : Nat)
    (hdecl : declared ≤ 65535) (hrest : rest.length < declared) :
    KeyEntry.deserialize_from (I := BySequenceIndex)
        (beBytes 2 declared ++ rest) order =
      Except.error Error.dataIntegrity ∧
    (∀ ds pos, BySequenceIndex.deserialize_from
        (beBytes 4 ds ++ (beBytes 8 pos ++ (beBytes 2 declared ++ rest)))
        order =
      Except.error Error.dataIntegrity) ∧
    Interior.deserialize_from (R := BySequenceStats)
        (beBytes 2 declared ++ rest) order =
      Except.error Error.dataIntegrity := by
  have hdecl' : declared < 256 ^ 2 := by omega
  have hgt : declared > rest.length := hrest
  refine ⟨?_, ?_, ?_⟩
  · simp only [KeyEntry.deserialize_from,
      readBE_beBytes_of_lt _ _ _ hdecl', ok_bind, if_pos hgt]
  · intro ds pos
    simp only [BySequenceIndex.deserialize_from, readBE_beBytes, ok_bind,
      readBE_beBytes_of_lt _ _ _ hdecl', if_pos hgt]
  · simp only [Interior.deserialize_from,
      readBE_beBytes_of_lt _ _ _ hdecl', ok_bind, if_pos hgt]

/-- Witness for C8 at a concrete truncated buffer. -/
theorem deserialize_truncated_data_integrity_witness :
    KeyEntry.deserialize_from (I := BySequenceIndex)
        (beBytes 2 3 ++ [1]) 4 = Except.error Error.dataIntegrity :=
  (deserialize_truncated_data_integrity 3 [1] 4 (by omega) (by simp)).1

theorem lruCache_put_get {K V : Type} [DecidableEq K] (c : LruCache K V)
    (k : K) (v : V) (hcap : 0 < c.capacity) :
    ((c.put k v).getEntry k).1 = some v := by
  unfold LruCache.put LruCache.getEntry
  by_cases hany : c.entries.any (fun e => e.1 = k)
  · simp [hany, List.find?_cons_of_pos]
  · simp only [hany, Bool.false_eq_true, if_false]
    cases hentries : c.entries with
    | nil =>
      have : ¬ c.capacity < ([(k, v)] : List (K × V)).length := by
        simp only [List.length_singleton]; omega
      simp [this, List.find?_cons_of_pos, hcap.ne']
    | cons b bs =>
      by_cases hdrop : c.capacity < ((k, v) :: b :: bs).length
      · simp only [hdrop, if_true, List.dropLast_cons₂]
        simp [List.find?_cons_of_pos]
      · simp only [hdrop, if_false]
        simp [List.find?_cons_of_pos]

theorem find?_map_preserve {K V : Type} [DecidableEq K]
    (l : List (K × V)) (key k' : K) (v : V) (hk : ¬ k' = key) :
    (l.map (fun e => if e.1 = key then (e.1, v) else e)).find?
        (fun e => e.1 = k') =
      l.find? (fun e => e.1 = k') := by
  induction l with
  | nil => rfl
  | cons b bs ih =>
    by_cases hb : b.1 = key
    · have hb' : ¬ b.1 = k' := by rw [hb]; intro hc; exact hk hc.symm
      simp only [List.map_cons, if_pos hb]
      rw [List.find?_cons_of_neg _ (by simpa using hb'),
        List.find?_cons_of_neg _ (by simpa using hb'), ih]
    · simp only [List.map_cons, if_neg hb]
      by_cases hb2 : b.1 = k'
      · rw [List.find?_cons_of_pos _ (by simpa using hb2),
          List.find?_cons_of_pos _ (by simpa using hb2)]
      · rw [List.find?_cons_of_neg _ (by simpa using hb2),
          List.find?_cons_of_neg _ (by simpa using hb2), ih]

theorem map_id_of_no_key {K V : Type} [DecidableEq K]
    (l : List (K × V)) (key : K) (v : V)
    (h : ∀ e ∈ l, ¬ e.1 = key) :
    l.map (fun e => if e.1 = key then (e.1, v) else e) = l := by
  induction l with
  | nil => rfl
  | cons b bs ih =>
    have hb := h b (List.mem_cons_self b bs)
    simp only [List.map_cons, if_neg hb]
    rw [ih (fun e he => h e (List.mem_cons_of_mem b he))]

/-- C6: `ChunkCache::insert` leaves the cache completely unchanged when the
buffer exceeds `max_chunk_length`; for a buffer within the limit (and a
cache of nonzero capacity) a subsequent `get` for the same
(file path, position) returns that buffer. -/
theorem chunkCache_insert_spec (c : ChunkCache) (file_path position : Nat)
    (buffer : List Nat) (hcap : 0 < c.cache.capacity) :
    (c.max_block_length < buffer.length →
      c.insert file_path position buffer = c) ∧
    (buffer.length ≤ c.max_block_length →
      ((c.insert file_path position buffer).get file_path position).1 =
        some (CacheEntry.buffer buffer)) := by
  constructor
  · intro h
    have : ¬ buffer.length ≤ c.max_block_length := by omega
    simp [ChunkCache.insert, this]
  · intro h
    simp only [ChunkCache.insert, if_pos h, ChunkCache.get]
    have := lruCache_put_get c.cache
      ({ position := position, file_path := file_path } : ChunkKey)
      (CacheEntry.buffer buffer) hcap
    rcases hfind : ((c.cache.put
        ({ position := position, file_path := file_path } : ChunkKey)
        (CacheEntry.buffer buffer)).getEntry
        ({ position := position, file_path := file_path } : ChunkKey)) with
      ⟨val, cc⟩
    rw [hfind] at this
    simpa using this

/-- Witness for C6 at a concrete cache. -/
theorem chunkCache_insert_spec_witness :
    (ChunkCache.insert ⟨2, ⟨4, []⟩⟩ 1 7 [5, 5, 5] = ⟨2, ⟨4, []⟩⟩) ∧
    ((ChunkCache.insert ⟨2, ⟨4, []⟩⟩ 1 7 [5, 5]).get 1 7).1 =
      some (CacheEntry.buffer [5, 5]) := by
  have h := chunkCache_insert_spec ⟨2, ⟨4, []⟩⟩ 1 7 [5, 5, 5] (by decide)
  have h2 := chunkCache_insert_spec ⟨2, ⟨4, []⟩⟩ 1 7 [5, 5] (by decide)
  exact ⟨h.1 (by decide), h2.2 (by decide)⟩

/-- C10: for a (file path, position) key with no entry in the cache,
`ChunkCache::replace_with_decoded` leaves the cache unchanged; in general
it never inserts an entry (the entry count is preserved) and leaves every
entry under another key untouched. -/
theorem chunkCache_replace_with_decoded_frame (c : ChunkCache)
    (file_path position value : Nat) :
    ((∀ e ∈ c.cache.entries,
        ¬ e.1 = ({ position := position, file_path := file_path } : ChunkKey)) →
      c.replace_with_decoded file_path position value = c) ∧
    ((c.replace_with_decoded file_path position value).cache.entries.length =
      c.cache.entries.length) ∧
    (∀ k' : ChunkKey,
      ¬ k' = ({ position := position, file_path := file_path } : ChunkKey) →
      (c.replace_with_decoded file_path position
          value).cache.entries.find? (fun e => e.1 = k') =
        c.cache.entries.find? (fun e => e.1 = k')) := by
  refine ⟨?_, ?_, ?_⟩
  · intro h
    simp only [ChunkCache.replace_with_decoded, LruCache.peekMutSet]
    rw [map_id_of_no_key _ _ _ h]
  · simp [ChunkCache.replace_with_decoded, LruCache.peekMutSet]
  · intro k' hk
    simp only [ChunkCache.replace_with_decoded, LruCache.peekMutSet]
    exact find?_map_preserve _ _ _ _ hk

/-- Witness for C10 at a concrete cache missing the key. -/
theorem chunkCache_replace_with_decoded_frame_witness :
    ChunkCache.replace_with_decoded
        ⟨2, ⟨4, [(⟨9, 9⟩, CacheEntry.buffer [1])]⟩⟩ 1 7 3 =
      ⟨2, ⟨4, [(⟨9, 9⟩, CacheEntry.buffer [1])]⟩⟩ :=
  (chunkCache_replace_with_decoded_frame
    ⟨2, ⟨4, [(⟨9, 9⟩, CacheEntry.buffer [1])]⟩⟩ 1 7 3).1 (by decide)

/-- C3: deserializing the bytes produced by `serialize_to` yields the
original value for `KeyEntry` (instantiated at the `BySequenceIndex`
payload), `BySequenceIndex`, `BySequenceStats` and `Interior` — for
`Interior`, equal up to the pointer being `OnDisk` at the position the
serializer recorded.  Fields of fixed-width integer type carry their width
bounds as hypotheses. -/
theorem serialization_roundtrip :
    (∀ (s : BySequenceIndex) (pw : PagedWriter) (rest : List Nat)
        (order : Nat),
      s.document_id.length ≤ 65535 → s.document_size < 256 ^ 4 →
      s.position < 256 ^ 8 →
      ∃ bytes, s.serialize_to pw = Except.ok (bytes, pw) ∧
        BySequenceIndex.deserialize_from (bytes ++ rest) order =
          Except.ok (s, rest)) ∧
    (∀ (s : BySequenceStats) (pw : PagedWriter) (rest : List Nat)
        (order : Nat),
      s.number_of_records < 256 ^ 8 →
      ∃ bytes, s.serialize_to pw = Except.ok (bytes, pw) ∧
        BySequenceStats.deserialize_from (bytes ++ rest) order =
          Except.ok (s, rest)) ∧
    (∀ (e : KeyEntry BySequenceIndex) (pw : PagedWriter) (rest : List Nat)
        (order : Nat),
      e.key.length ≤ 65535 → e.index.document_id.length ≤ 65535 →
      e.index.document_size < 256 ^ 4 → e.index.position < 256 ^ 8 →
      ∃ bytes, e.serialize_to pw = Except.ok (bytes, pw) ∧
        KeyEntry.deserialize_from (bytes ++ rest) order =
          Except.ok (e, rest)) ∧
    (∀ (i : Interior BTreeEntryNode BySequenceStats) (pw : PagedWriter)
        (rest : List Nat) (order : Nat),
      i.key.length ≤ 65535 → i.stats.number_of_records < 256 ^ 8 →
      (Interior.resolveLocation i.position pw).1 < 256 ^ 8 →
      ∃ bytes, i.serialize_to pw =
          Except.ok (bytes, (Interior.resolveLocation i.position pw).2) ∧
        Interior.deserialize_from (bytes ++ rest) order =
          Except.ok ((⟨i.key,
              Pointer.onDisk (Interior.resolveLocation i.position pw).1,
              i.stats⟩ : Interior BTreeEntryNode BySequenceStats), rest)) := by
  refine ⟨?_, ?_, ?_, ?_⟩
  · intro s pw rest order hid hds hpos
    exact ⟨_, bySequenceIndex_roundtrip s pw rest order hid hds hpos⟩
  · intro s pw rest order hn
    exact ⟨_, bySequenceStats_roundtrip s pw rest order hn⟩
  · intro e pw rest order hkey hid hds hpos
    have h := bySequenceIndex_roundtrip e.index pw rest order hid hds hpos
    exact ⟨_, keyEntry_roundtrip e pw pw _ rest order hkey h.1 h.2⟩
  · intro i pw rest order hkey hn hloc
    have hstats := bySequenceStats_roundtrip i.stats
      (Interior.resolveLocation i.position pw).2 rest order hn
    have h := interior_roundtrip i pw (Interior.resolveLocation i.position pw).2
      (Interior.resolveLocation i.position pw).2
      (Interior.resolveLocation i.position pw).1
      (beBytes 8 i.stats.number_of_records) rest order hkey rfl hloc
      hstats.1 hstats.2
    exact ⟨_, h⟩

/-- Witness for C3 at concrete records. -/
theorem serialization_roundtrip_witness :
    ∃ bytes,
      BySequenceIndex.serialize_to ⟨[3], 9, 11⟩ ⟨0, []⟩ =
        Except.ok (bytes, (⟨0, []⟩ : PagedWriter)) ∧
      BySequenceIndex.deserialize_from (bytes ++ [0]) 4 =
        Except.ok ((⟨[3], 9, 11⟩ : BySequenceIndex), [0]) :=
  serialization_roundtrip.1 ⟨[3], 9, 11⟩ ⟨0, []⟩ [0] 4
    (by decide) (by decide) (by decide)

theorem stage_trace_getElem {α : Type} (f g : Nat → α) (x : α)
    (n p : Nat) :
    ((List.range n).map f ++ [x] ++ (List.range n).map g)[p]? =
      if p < n then some (f p)
      else if p = n then some x
      else if p < 2 * n + 1 then some (g (p - n - 1))
      else none := by
  have hA : ((List.range n).map f).length = n := by simp
  have hAx : ((List.range n).map f ++ [x]).length = n + 1 := by simp
  by_cases h1 : p < n
  · have e1 : p < ((List.range n).map f ++ [x]).length := by omega
    rw [List.getElem?_append_left e1]
    have e2 : p < ((List.range n).map f).length := by omega
    rw [List.getElem?_append_left e2]
    simp [List.getElem?_range h1, h1]
  · by_cases h2 : p = n
    · have e1 : p < ((List.range n).map f ++ [x]).length := by omega
      rw [List.getElem?_append_left e1]
      have e2 : ((List.range n).map f).length ≤ p := by omega
      rw [List.getElem?_append_right e2]
      simp [hA, h1, h2]
    · by_cases h3 : p < 2 * n + 1
      · have e1 : ((List.range n).map f ++ [x]).length ≤ p := by omega
        rw [List.getElem?_append_right e1]
        have hlt : p - (n + 1) < n := by omega
        rw [hAx]
        simp only [List.getElem?_map, List.getElem?_range hlt, Option.map_some']
        have e4 : p - (n + 1) = p - n - 1 := by omega
        simp [h1, h2, h3, e4]
      · have hlen : (((List.range n).map f ++ [x] ++
            (List.range n).map g)).length ≤ p := by
          simp only [List.length_append, List.length_map, List.length_range,
            List.length_singleton]
          omega
        rw [List.getElem?_eq_none hlen]
        simp [h1, h2, h3]

/-- C1: in `ExecutingTransaction::commit`, the transaction-log push happens
only after every tree's commit, each state publish happens only after the
push, and if any tree's commit fails the commit returns that error with no
log entry pushed and no state published. -/
theorem executingTransaction_commit_ordering
    (trees : List TransactionTreeModel) :
    (∀ e, firstCommitError trees = some e →
      (ExecutingTransaction.commit trees).1 = Except.error e ∧
      CommitEvent.logPush ∉ (ExecutingTransaction.commit trees).2 ∧
      ∀ i, CommitEvent.publish i ∉ (ExecutingTransaction.commit trees).2) ∧
    (∀ (p q i : Nat),
      (ExecutingTransaction.commit trees).2[p]? =
        some (CommitEvent.treeCommit i) →
      (ExecutingTransaction.commit trees).2[q]? = some CommitEvent.logPush →
      p < q) ∧
    (∀ (p q i : Nat),
      (ExecutingTransaction.commit trees).2[p]? = some CommitEvent.logPush →
      (ExecutingTransaction.commit trees).2[q]? =
        some (CommitEvent.publish i) →
      p < q) ∧
    (firstCommitError trees = none →
      (ExecutingTransaction.commit trees).1 = Except.ok () ∧
      ∀ i, i < trees.length →
        (ExecutingTransaction.commit trees).2[i]? =
          some (CommitEvent.treeCommit i) ∧
        CommitEvent.publish i ∈ (ExecutingTransaction.commit trees).2) := by
  cases herr : firstCommitError trees with
  | some e =>
    have hcommit : ExecutingTransaction.commit trees =
        (Except.error e,
          (List.range trees.length).map CommitEvent.treeCommit) := by
      simp [ExecutingTransaction.commit, ThreadPool.commit_trees, herr]
    refine ⟨?_, ?_, ?_, ?_⟩
    · intro e' he'
      injection he' with he'
      subst he'
      rw [hcommit]
      refine ⟨rfl, ?_, ?_⟩
      · intro hmem
        rcases List.mem_map.1 hmem with ⟨a, _, hax⟩
        exact CommitEvent.noConfusion hax
      · intro i hmem
        rcases List.mem_map.1 hmem with ⟨a, _, hax⟩
        exact CommitEvent.noConfusion hax
    · intro p q i hp hq
      rw [hcommit] at hq
      have := List.getElem?_mem hq
      rcases List.mem_map.1 this with ⟨a, _, hax⟩
      exact absurd hax (by intro h; exact CommitEvent.noConfusion h)
    · intro p q i hp hq
      rw [hcommit] at hp
      have := List.getElem?_mem hp
      rcases List.mem_map.1 this with ⟨a, _, hax⟩
      exact absurd hax (by intro h; exact CommitEvent.noConfusion h)
    · intro hc
      exact Option.noConfusion hc
  | none =>
    have hcommit : ExecutingTransaction.commit trees =
        (Except.ok (),
          (List.range trees.length).map CommitEvent.treeCommit ++
            [CommitEvent.logPush] ++
            (List.range trees.length).map CommitEvent.publish) := by
      simp [ExecutingTransaction.commit, ThreadPool.commit_trees, herr]
    have hchar := stage_trace_getElem CommitEvent.treeCommit
      CommitEvent.publish CommitEvent.logPush trees.length
    refine ⟨?_, ?_, ?_, ?_⟩
    · intro e he
      exact Option.noConfusion he
    · intro p q i hp hq
      rw [hcommit] at hp hq
      rw [hchar p] at hp
      rw [hchar q] at hq
      by_cases h1 : p < trees.length
      · by_cases h2 : q < trees.length
        · rw [if_pos h2] at hq
          injection hq with hq
          exact CommitEvent.noConfusion hq
        · by_cases h3 : q = trees.length
          · omega
          · by_cases h4 : q < 2 * trees.length + 1
            · rw [if_neg h2, if_neg h3, if_pos h4] at hq
              injection hq with hq
              exact CommitEvent.noConfusion hq
            · rw [if_neg h2, if_neg h3, if_neg h4] at hq
              exact Option.noConfusion hq
      · by_cases h2 : p = trees.length
        · rw [if_neg h1, if_pos h2] at hp
          injection hp with hp
          exact CommitEvent.noConfusion hp
        · by_cases h3 : p < 2 * trees.length + 1
          · rw [if_neg h1, if_neg h2, if_pos h3] at hp
            injection hp with hp
            exact CommitEvent.noConfusion hp
          · rw [if_neg h1, if_neg h2, if_neg h3] at hp
            exact Option.noConfusion hp
    · intro p q i hp hq
      rw [hcommit] at hp hq
      rw [hchar p] at hp
      rw [hchar q] at hq
      by_cases h1 : p < trees.length
      · rw [if_pos h1] at hp
        injection hp with hp
        exact CommitEvent.noConfusion hp
      · by_cases h2 : p = trees.length
        · by_cases h3 : q < trees.length
          · rw [if_pos h3] at hq
            injection hq with hq
            exact CommitEvent.noConfusion hq
          · by_cases h4 : q = trees.length
            · rw [if_neg h3, if_pos h4] at hq
              injection hq with hq
              exact CommitEvent.noConfusion hq
            · by_cases h5 : q < 2 * trees.length + 1
              · omega
              · rw [if_neg h3, if_neg h4, if_neg h5] at hq
                exact Option.noConfusion hq
        · by_cases h3 : p < 2 * trees.length + 1
          · rw [if_neg h1, if_neg h2, if_pos h3] at hp
            injection hp with hp
            exact CommitEvent.noConfusion hp
          · rw [if_neg h1, if_neg h2, if_neg h3] at hp
            exact Option.noConfusion hp
    · intro _
      rw [hcommit]
      refine ⟨rfl, ?_⟩
      intro i hi
      constructor
      · rw [hchar i, if_pos hi]
      · refine List.mem_append_right _ ?_
        exact List.mem_map.2 ⟨i, List.mem_range.2 hi, rfl⟩

/-- Witness for C1 at concrete trees: one failing commit, and a pair of
successful commits. -/
theorem executingTransaction_commit_ordering_witness :
    (ExecutingTransaction.commit [⟨Except.error Error.ioError⟩]).1 =
      Except.error Error.ioError ∧
    CommitEvent.logPush ∉
      (ExecutingTransaction.commit [⟨Except.error Error.ioError⟩]).2 ∧
    (ExecutingTransaction.commit [⟨Except.ok ()⟩, ⟨Except.ok ()⟩]).1 =
      Except.ok () := by
  have h1 := (executingTransaction_commit_ordering
    [⟨Except.error Error.ioError⟩]).1 Error.ioError (by decide)
  have h2 := (executingTransaction_commit_ordering
    [⟨Except.ok ()⟩, ⟨Except.ok ()⟩]).2.2.2 (by decide)
  exact ⟨h1.1, h1.2.1, h2.1⟩

/-- C2: dropping an `ExecutingTransaction` whose handle is still present
(commit was not called) rolls back every tree — the working state reverts
to the published copy, which itself is unchanged, so a subsequent read of
the published state returns the pre-transaction value — and every rollback
happens before the transaction handle is released. -/
theorem executingTransaction_drop_rollback (tx : ExecutingTransactionModel)
    (hid : Nat) (h : tx.transaction = some hid) :
    (∀ (i : Nat) (s : TreeStateModel), tx.trees[i]? = some s →
      (ExecutingTransaction.dropHandler tx).1[i]? =
        some ⟨s.published, s.published⟩ ∧
      readPublished ⟨s.published, s.published⟩ = readPublished s) ∧
    (∀ (p q i : Nat),
      (ExecutingTransaction.dropHandler tx).2[p]? =
        some (DropEvent.rollbackTree i) →
      (ExecutingTransaction.dropHandler tx).2[q]? =
        some DropEvent.releaseHandle →
      p < q) ∧
    DropEvent.releaseHandle ∈ (ExecutingTransaction.dropHandler tx).2 ∧
    (∀ i, i < tx.trees.length →
      DropEvent.rollbackTree i ∈ (ExecutingTransaction.dropHandler tx).2) := by
  have hdrop : ExecutingTransaction.dropHandler tx =
      (tx.trees.map TreeStateModel.rollback,
        (List.range tx.trees.length).map DropEvent.rollbackTree ++
          [DropEvent.releaseHandle]) := by
    simp [ExecutingTransaction.dropHandler, h]
  have hA : ((List.range tx.trees.length).map DropEvent.rollbackTree).length =
      tx.trees.length := by simp
  refine ⟨?_, ?_, ?_, ?_⟩
  · intro i s hs
    rw [hdrop]
    constructor
    · simp only [List.getElem?_map, hs, Option.map_some']
      rfl
    · rfl
  · intro p q i hp hq
    rw [hdrop] at hp hq
    have hplt : p < tx.trees.length := by
      by_contra hge
      rw [List.getElem?_append_right (by omega :
        ((List.range tx.trees.length).map DropEvent.rollbackTree).length ≤ p)]
        at hp
      rw [hA] at hp
      rcases hsing : ([DropEvent.releaseHandle] : List DropEvent)[p -
          tx.trees.length]? with _ | ev
      · rw [hsing] at hp; exact Option.noConfusion hp
      · rw [hsing] at hp
        have := List.getElem?_mem hsing
        rw [List.mem_singleton] at this
        subst this
        injection hp with hp
        exact DropEvent.noConfusion hp
    have hqge : tx.trees.length ≤ q := by
      by_contra hlt
      rw [List.getElem?_append_left (by omega :
        q < ((List.range tx.trees.length).map DropEvent.rollbackTree).length)]
        at hq
      have := List.getElem?_mem hq
      rcases List.mem_map.1 this with ⟨a, _, hax⟩
      exact DropEvent.noConfusion hax
    omega
  · rw [hdrop]
    exact List.mem_append_right _ (List.mem_singleton_self _)
  · intro i hi
    rw [hdrop]
    exact List.mem_append_left _
      (List.mem_map.2 ⟨i, List.mem_range.2 hi, rfl⟩)

/-- Witness for C2 at a concrete uncommitted transaction over one tree. -/
theorem executingTransaction_drop_rollback_witness :
    (ExecutingTransaction.dropHandler ⟨[⟨5, 9⟩], some 1⟩).1[0]? =
      some ⟨5, 5⟩ ∧
    DropEvent.releaseHandle ∈
      (ExecutingTransaction.dropHandler ⟨[⟨5, 9⟩], some 1⟩).2 := by
  have h := executingTransaction_drop_rollback ⟨[⟨5, 9⟩], some 1⟩ 1 rfl
  exact ⟨(h.1 0 ⟨5, 9⟩ rfl).1, h.2.2.1⟩

end Nebari
